import Mathlib

/-!
Verification of the aspect-computation core of the Oraclo1 repository
(`astro_analysis.py` and `venus.py`), shallowly embedded in Lean 4.

Angles are embedded as exact rationals (`ℚ`); Python's `%` on numbers is
floored modulus, embedded via `Int.floor`.  Calendar dates are embedded as
integers (day index, with index 0 falling on a Monday so that
`weekday d = d % 7` matches Python's `date.weekday()` convention
Monday=0..Sunday=6).  Python dicts are embedded as insertion-ordered
association lists.  Fallible calls (the swisseph ephemeris lookups) are
embedded as `Except String`-valued oracles, and code that may propagate an
exception runs in the `Except String` monad.
-/

/-- Python `deg % 360` (floored modulus, result in `[0, 360)`):
`normalize_angle` from `astro_analysis.py` line 59. -/
def normalize_angle (deg : ℚ) : ℚ := deg - 360 * ⌊deg / 360⌋

/-- `angular_diff` from `astro_analysis.py` line 62:
`min(abs(normalize_angle(a-b)), abs(normalize_angle(b-a)), 360 - abs(normalize_angle(a-b)))`.
Python's three-argument `min` is the nested binary minimum. -/
def angular_diff (a b : ℚ) : ℚ :=
  min (min |normalize_angle (a - b)| |normalize_angle (b - a)|)
    (360 - |normalize_angle (a - b)|)

/-- One value of the aspect-catalogue dict built by `get_user_aspect_config`:
the Python inner dict with keys `angle`, `orb`, `score`. -/
structure AspectCfg where
  angle : ℚ
  orb : ℚ
  score : ℚ
deriving DecidableEq

/-- The aspect catalogue: an insertion-ordered Python dict
name -> (angle, orb, score). -/
abbrev Catalogue := List (String × AspectCfg)

/-- `ASPECT_ANGLES` from `astro_analysis.py` lines 31-41 (a dict, embedded in
its insertion order). -/
def ASPECT_ANGLES : List (String × ℚ) :=
  [("Conjunction", 0), ("Opposition", 180), ("Trine", 120), ("Sextile", 60),
   ("Square", 90), ("Quincunx", 150), ("Semisextile", 30), ("Semisquare", 45),
   ("Sesquisquare", 135)]

/-- The static aspect-type list from `venus.py` lines 172-173, the insertion
order of the orb/score dicts built by the UI layer. -/
def aspect_types : List String :=
  ["Conjunction", "Opposition", "Trine", "Sextile", "Square",
   "Quincunx", "Semisextile", "Semisquare", "Sesquisquare"]

/-- `get_user_aspect_config` from `astro_analysis.py` lines 53-57: the dict
comprehension over the keys of `aspect_orbs`, in their insertion order;
the lookups `ASPECT_ANGLES[k]` and `aspect_scores[k]` raise `KeyError`
(here: `none`) on a missing key. -/
def get_user_aspect_config (aspect_orbs : List (String × ℚ))
    (aspect_scores : List (String × ℚ)) : Option Catalogue :=
  match aspect_orbs with
  | [] => some []
  | (k, orb) :: rest =>
    match ASPECT_ANGLES.lookup k, aspect_scores.lookup k,
        get_user_aspect_config rest aspect_scores with
    | some ang, some sc, some cfg => some ((k, ⟨ang, orb, sc⟩) :: cfg)
    | _, _, _ => none

/-- The per-entry test of `determine_aspect` (`astro_analysis.py` line 67):
`abs(diff - cfg['angle']) <= cfg['orb']`. -/
def entry_matches (c : AspectCfg) (diff : ℚ) : Bool :=
  decide (|diff - c.angle| ≤ c.orb)

/-- `determine_aspect` from `astro_analysis.py` lines 65-69: iterate the
catalogue in dict insertion order, return the first entry within orb.
The Python function returns either the full triple
`(name, abs(diff - angle), score)` or the all-`None` triple
`(None, None, None)`; the two shapes are embedded as
`some (name, residual, score)` and `none`. -/
def determine_aspect (diff : ℚ) (cfg : Catalogue) : Option (String × ℚ × ℚ) :=
  match cfg with
  | [] => none
  | (name, c) :: rest =>
    if |diff - c.angle| ≤ c.orb then some (name, |diff - c.angle|, c.score)
    else determine_aspect diff rest

/-- `NYSE_NATAL_POSITIONS` from `astro_analysis.py` lines 24-29 (dict,
insertion order). -/
def NYSE_NATAL_POSITIONS : List (String × ℚ) :=
  [("ASC", 103.85), ("MC", 353.33), ("Neptune", 207.7), ("Mars", 228.72)]

/-- One emitted result row (`astro_analysis.py` lines 114-120 etc.).  The
Python row stores the pair names, matched aspect name and residual embedded
in the formatted `Aspect` description string; they are kept here as
structured fields alongside `Date`, `Ticker`, `Score`, `Source`. -/
structure Row where
  date : ℤ
  ticker : String
  source : String
  nameA : String
  nameB : String
  aspect : String
  orbDiff : ℚ
  score : ℚ
deriving DecidableEq

/-- The deduplication key `(source, first name, second name, aspect)` used
for `prev_orbs` (`astro_analysis.py` lines 112, 127, 147). -/
abbrev OrbKey := String × String × String × String

/-- The composite key carried by a row. -/
def Row.key (r : Row) : OrbKey := (r.source, r.nameA, r.nameB, r.aspect)

/-- Python dict lookup for the `prev_orbs` dict. -/
def lookupOrb (m : List (OrbKey × ℚ)) (k : OrbKey) : Option ℚ :=
  match m with
  | [] => none
  | (k', v) :: rest => if k' = k then some v else lookupOrb rest k

/-- Python dict assignment `prev_orbs[key] = v` (overwrite or append). -/
def setOrb (m : List (OrbKey × ℚ)) (k : OrbKey) (v : ℚ) : List (OrbKey × ℚ) :=
  match m with
  | [] => [(k, v)]
  | (k', v') :: rest => if k' = k then (k, v) :: rest else (k', v') :: setOrb rest k v

/-- The mutable state of one scan (`results` list and `prev_orbs` dict,
`astro_analysis.py` lines 99-100). -/
structure ScanState where
  results : List Row
  prevOrbs : List (OrbKey × ℚ)
deriving DecidableEq

/-- One pair evaluation performed inside the per-day loops: a source
category, the two point names, and their circular distance. -/
structure PairEval where
  source : String
  nameA : String
  nameB : String
  diff : ℚ
deriving DecidableEq

/-- The `(source, nameA, nameB)` part of a pair evaluation. -/
def PairEval.triple (e : PairEval) : String × String × String :=
  (e.source, e.nameA, e.nameB)

/-- The `(source, nameA, nameB)` part of a dedup key. -/
def keyTriple (k : OrbKey) : String × String × String := (k.1, k.2.1, k.2.2.1)

/-- The body of each inner loop of `calculate_aspects_for_ticker`
(`astro_analysis.py` lines 109-121, 124-136, 144-156): resolve the aspect,
and if the name is truthy (`if aspect:` — false for `None` and for the empty
string), append a row when the key is new or the residual is strictly
smaller than `prev_orbs[key]`, then unconditionally store the residual in
`prev_orbs[key]`. -/
def processEval (ticker : String) (cfg : Catalogue) (date : ℤ)
    (st : ScanState) (e : PairEval) : ScanState :=
  match determine_aspect e.diff cfg with
  | none => st
  | some (aspect, orb_diff, score) =>
    if aspect = "" then st
    else
      let key : OrbKey := (e.source, e.nameA, e.nameB, aspect)
      let emit : Bool :=
        match lookupOrb st.prevOrbs key with
        | none => true
        | some prev => decide (orb_diff < prev)
      let results :=
        if emit then
          st.results ++ [⟨date, ticker, e.source, e.nameA, e.nameB, aspect, orb_diff, score⟩]
        else st.results
      ⟨results, setOrb st.prevOrbs key orb_diff⟩

/-- The transit-to-transit pair list (`astro_analysis.py` lines 139-144):
all pairs `i < j` of the transit bodies, in loop order. -/
def ttPairs (l : List (String × ℚ)) : List PairEval :=
  match l with
  | [] => []
  | (n1, d1) :: rest =>
    rest.map (fun p => ⟨"Transit", n1, p.1, angular_diff d1 p.2⟩) ++ ttPairs rest

/-- The ordered list of pair evaluations performed for one sampled day
(`astro_analysis.py` lines 107-156): for each transit body, every IPO natal
point then every NYSE reference point; then every unordered transit pair. -/
def dayEvals (ipoPos transitPos : List (String × ℚ)) : List PairEval :=
  (transitPos.flatMap (fun t =>
    ipoPos.map (fun n => ⟨"IPO", t.1, n.1, angular_diff t.2 n.2⟩)
    ++ NYSE_NATAL_POSITIONS.map (fun n => ⟨"NYSE", t.1, n.1, angular_diff t.2 n.2⟩)))
  ++ ttPairs transitPos

/-- One iteration of the date loop, at one sampled instant. -/
def scanDay (ticker : String) (cfg : Catalogue) (ipoPos transitPos : List (String × ℚ))
    (date : ℤ) (st : ScanState) : ScanState :=
  (dayEvals ipoPos transitPos).foldl (processEval ticker cfg date) st

/-- The inclusive day walk `while current_date <= end_date`
(`astro_analysis.py` lines 102-158): the ascending list of day indices from
`s` to `e`. -/
def dateRange (s e : ℤ) : List ℤ :=
  (List.range (e + 1 - s).toNat).map (fun (i : ℕ) => s + (i : ℤ))

/-- One row of the IPO reference table: ticker and reference (IPO) date. -/
structure IpoRow where
  ticker : String
  date : ℤ
deriving DecidableEq

/-- The date loop of `calculate_aspects_for_ticker`: each instant first asks
the ephemeris oracle for the transit longitudes (a call that may raise —
there is no try/except inside the loop, so an error propagates), then feeds
the day's pair evaluations to the accumulator. -/
def scanDates {Time : Type} (ticker : String) (cfg : Catalogue)
    (ipoPos : List (String × ℚ)) (time_of_day : Time)
    (ephemeris : ℤ → Time → Except String (List (String × ℚ))) :
    List ℤ → ScanState → Except String ScanState
  | [], st => .ok st
  | d :: ds, st =>
    (ephemeris d time_of_day).bind (fun transitPos =>
      scanDates ticker cfg ipoPos time_of_day ephemeris ds
        (scanDay ticker cfg ipoPos transitPos d st))

/-- `calculate_aspects_for_ticker` from `astro_analysis.py` lines 86-160.
The swisseph ephemeris (`get_planet_longitudes_swe`) is an external oracle
`ephemeris : day → time → Except String positions`.  A missing ticker row
returns the empty frame; reversed endpoints are swapped; the IPO reference
positions are computed once at the first matching row's date; then the day
loop runs (any ephemeris error propagating uncaught). -/
def calculate_aspects_for_ticker {Time : Type} (ticker : String)
    (df_ipo : List IpoRow) (start_date end_date : ℤ) (time_of_day : Time)
    (cfg : Catalogue)
    (ephemeris : ℤ → Time → Except String (List (String × ℚ))) :
    Except String (List Row) :=
  match df_ipo.filter (fun r => r.ticker == ticker) with
  | [] => .ok []
  | row :: _ =>
    let s := if start_date > end_date then end_date else start_date
    let e := if start_date > end_date then start_date else end_date
    (ephemeris row.date time_of_day).bind (fun ipoPos =>
      (scanDates ticker cfg ipoPos time_of_day ephemeris (dateRange s e) ⟨[], []⟩).map
        (fun st => st.results))

/-- Python's `date.weekday()` (Monday=0..Sunday=6) under the embedding of
dates as day indices with index 0 on a Monday: euclidean `d % 7`. -/
def weekday (d : ℤ) : ℤ := d % 7

/-- `build_date_to_time_map` from `venus.py` lines 31-42: walk the inclusive
date range and keep only the dates whose weekday has an assigned time
(`weekday_time_map.get(wd)` not `None`).  The output dict is embedded as an
association list in insertion (ascending-date) order. -/
def build_date_to_time_map {Time : Type} (start_d end_d : ℤ)
    (weekday_time_map : ℤ → Option Time) : List (ℤ × Time) :=
  (dateRange start_d end_d).filterMap
    (fun d => (weekday_time_map (weekday d)).map (fun t => (d, t)))

/-- `defaultdict(list)` append `time_groups[t].append(d)`
(`venus.py` lines 59-61). -/
def addToGroup {Time : Type} [DecidableEq Time] (groups : List (Time × List ℤ))
    (t : Time) (d : ℤ) : List (Time × List ℤ) :=
  match groups with
  | [] => [(t, [d])]
  | (t', ds) :: rest =>
    if t' = t then (t', ds ++ [d]) :: rest else (t', ds) :: addToGroup rest t d

/-- The grouping loop of `run_calculations_per_time`: dates grouped by their
chosen time, groups in first-encounter order. -/
def groupByTime {Time : Type} [DecidableEq Time]
    (date_to_time : List (ℤ × Time)) : List (Time × List ℤ) :=
  date_to_time.foldl (fun g p => addToGroup g p.2 p.1) []

/-- Python `min(dates_list)` (the group lists are nonempty by construction;
the `[]` case is unreachable). -/
def listMinD (l : List ℤ) : ℤ :=
  match l with
  | [] => 0
  | h :: t => t.foldl min h

/-- Python `max(dates_list)`. -/
def listMaxD (l : List ℤ) : ℤ :=
  match l with
  | [] => 0
  | h :: t => t.foldl max h

/-- The call expression at `venus.py` lines 69-76:
`calculate_aspects_for_ticker(ticker=..., matched_df=matched_df,
start_date=..., end_date=..., time_of_day=..., aspect_config=...)`.
The target's signature (`astro_analysis.py` line 86) is
`(ticker, df_ipo, start_date, end_date, time_of_day, aspect_config)`: it has
no `matched_df` parameter, so Python raises `TypeError` while binding the
arguments, before the function body ever runs.  The embedding therefore
evaluates this call expression to that `TypeError` and never reaches
`calculate_aspects_for_ticker` itself. -/
def scan_call_with_matched_df {Time : Type} (ticker : String)
    (matched_df : List IpoRow) (start_date end_date : ℤ) (time_of_day : Time)
    (aspect_config : Catalogue) : Except String (List Row) :=
  Except.error
    "TypeError: calculate_aspects_for_ticker() got an unexpected keyword argument matched_df"

/-- The per-group loop of `run_calculations_per_time` (`venus.py` lines
64-109).  Each iteration begins with the keyword call of lines 69-76
(`scan_call_with_matched_df`), which raises `TypeError`; as there is no
try/except inside the loop the error propagates, so the rest of the loop
body — the column sniffing and date filtering of lines 78-107 and the
append of line 109 — is unreachable, as is every later iteration. -/
def runGroups {Time : Type} (ticker : String) (df_ipo : List IpoRow)
    (cfg : Catalogue)
    (ephemeris : ℤ → Time → Except String (List (String × ℚ))) :
    List (Time × List ℤ) → List Row → Except String (List Row)
  | [], parts => .ok parts
  | (t, ds) :: rest, parts =>
    (scan_call_with_matched_df ticker df_ipo (listMinD ds) (listMaxD ds)
        t cfg).bind
      (fun df => runGroups ticker df_ipo cfg ephemeris rest (parts ++ df))

/-- `run_calculations_per_time` from `venus.py` lines 44-113: an empty
date-to-time map yields an empty frame (line 56); otherwise the dates are
grouped by time and the per-group loop runs — whose first iteration raises
`TypeError` (see `runGroups`), so every call with a nonempty map errors
before producing any row. -/
def run_calculations_per_time {Time : Type} [DecidableEq Time] (ticker : String)
    (df_ipo : List IpoRow) (date_to_time : List (ℤ × Time)) (cfg : Catalogue)
    (ephemeris : ℤ → Time → Except String (List (String × ℚ))) :
    Except String (List Row) :=
  match date_to_time with
  | [] => .ok []
  | _ => runGroups ticker df_ipo cfg ephemeris (groupByTime date_to_time) []

/-- The per-ticker analysis loop of `venus.py` lines 209-239: each selected
ticker's whole analysis is wrapped in `try/except`, so one ticker's
exception is recorded (`st.error`) and the loop continues with the next
ticker.  The loop's observable outcome is one `Except` result per ticker. -/
def analysis_loop (tickers : List String)
    (run : String → Except String (List Row)) :
    List (String × Except String (List Row)) :=
  match tickers with
  | [] => []
  | t :: rest => (t, run t) :: analysis_loop rest run

theorem except_bind_ok {α β : Type} (a : α) (f : α → Except String β) :
    (Except.ok a : Except String α).bind f = f a := rfl

theorem except_bind_error {α β : Type} (e : String) (f : α → Except String β) :
    (Except.error e : Except String α).bind f = Except.error e := rfl

theorem except_map_ok {α β : Type} (a : α) (f : α → β) :
    (Except.ok a : Except String α).map f = Except.ok (f a) := rfl

theorem except_map_error {α β : Type} (e : String) (f : α → β) :
    (Except.error e : Except String α).map f = Except.error e := rfl

theorem normalize_angle_nonneg (x : ℚ) : 0 ≤ normalize_angle x := by
  have h : (⌊x / 360⌋ : ℚ) ≤ x / 360 := Int.floor_le _
  unfold normalize_angle
  linarith

theorem normalize_angle_lt (x : ℚ) : normalize_angle x < 360 := by
  have h : x / 360 < ⌊x / 360⌋ + 1 := Int.lt_floor_add_one _
  unfold normalize_angle
  linarith

theorem normalize_angle_add_int (x : ℚ) (k : ℤ) :
    normalize_angle (x + 360 * k) = normalize_angle x := by
  unfold normalize_angle
  have h : (x + 360 * (k : ℚ)) / 360 = x / 360 + (k : ℚ) := by ring
  rw [h, Int.floor_add_int]
  push_cast
  ring

theorem normalize_angle_int_mul (k : ℤ) : normalize_angle (360 * k) = 0 := by
  have h := normalize_angle_add_int 0 k
  rw [zero_add] at h
  rw [h]
  unfold normalize_angle
  norm_num

theorem normalize_angle_opposite (k : ℤ) : normalize_angle (180 + 360 * k) = 180 := by
  rw [normalize_angle_add_int 180 k]
  unfold normalize_angle
  have h : ⌊(180 : ℚ) / 360⌋ = 0 := by
    rw [Int.floor_eq_zero_iff]
    constructor <;> norm_num
  rw [h]
  norm_num

theorem normalize_angle_neg (x : ℚ) :
    normalize_angle (-x) =
      if normalize_angle x = 0 then 0 else 360 - normalize_angle x := by
  have h0 := normalize_angle_nonneg x
  have h1 := normalize_angle_lt x
  by_cases hr : normalize_angle x = 0
  · rw [if_pos hr]
    have hx : x = 360 * (⌊x / 360⌋ : ℚ) := by
      unfold normalize_angle at hr
      linarith
    have h2 : -x = 360 * ((-⌊x / 360⌋ : ℤ) : ℚ) := by
      push_cast
      linarith
    rw [h2, normalize_angle_int_mul]
  · rw [if_neg hr]
    have hr' : 0 < normalize_angle x := lt_of_le_of_ne h0 (Ne.symm hr)
    unfold normalize_angle at hr' h1 ⊢
    have hfl : ⌊(-x) / 360⌋ = -⌊x / 360⌋ - 1 := by
      rw [Int.floor_eq_iff]
      constructor
      · push_cast
        have : (⌊x / 360⌋ : ℚ) ≤ x / 360 := Int.floor_le _
        nlinarith
      · push_cast
        nlinarith
    rw [hfl]
    push_cast
    ring

theorem angular_diff_eq_min (a b : ℚ) :
    angular_diff a b =
      min (normalize_angle (a - b)) (360 - normalize_angle (a - b)) := by
  have h0 := normalize_angle_nonneg (a - b)
  have h1 := normalize_angle_lt (a - b)
  have hneg : normalize_angle (b - a) =
      if normalize_angle (a - b) = 0 then 0 else 360 - normalize_angle (a - b) := by
    rw [← neg_sub a b]
    exact normalize_angle_neg (a - b)
  unfold angular_diff
  by_cases hr : normalize_angle (a - b) = 0
  · rw [hr] at hneg ⊢
    rw [if_pos rfl] at hneg
    rw [hneg]
    norm_num
  · rw [if_neg hr] at hneg
    rw [hneg, abs_of_nonneg h0, abs_of_nonneg (by linarith : (0:ℚ) ≤ 360 - normalize_angle (a - b))]
    rw [min_assoc, min_self]

/-- C3: `angular_diff` is symmetric, lies in `[0, 180]`, is `0` whenever the
two angles are congruent mod 360, and is `180` whenever they are directly
opposite — all in exact rational arithmetic. -/
theorem angular_diff_spec (a b : ℚ) :
    angular_diff a b = angular_diff b a ∧
    0 ≤ angular_diff a b ∧ angular_diff a b ≤ 180 ∧
    (∀ k : ℤ, a - b = 360 * k → angular_diff a b = 0) ∧
    (∀ k : ℤ, a - b = 180 + 360 * k → angular_diff a b = 180) := by
  have h0 := normalize_angle_nonneg (a - b)
  have h1 := normalize_angle_lt (a - b)
  have hab := angular_diff_eq_min a b
  have hba := angular_diff_eq_min b a
  have hneg : normalize_angle (b - a) =
      if normalize_angle (a - b) = 0 then 0 else 360 - normalize_angle (a - b) := by
    rw [← neg_sub a b]
    exact normalize_angle_neg (a - b)
  refine ⟨?_, ?_, ?_, ?_, ?_⟩
  · rw [hab, hba]
    by_cases hr : normalize_angle (a - b) = 0
    · rw [if_pos hr] at hneg
      rw [hneg, hr]
    · rw [if_neg hr] at hneg
      rw [hneg]
      have : (360 : ℚ) - (360 - normalize_angle (a - b)) = normalize_angle (a - b) := by ring
      rw [this, min_comm]
  · rw [hab]
    have : (0:ℚ) ≤ 360 - normalize_angle (a - b) := by linarith
    exact le_min h0 this
  · rw [hab]
    rcases le_total (normalize_angle (a - b)) 180 with h | h
    · exact le_trans (min_le_left _ _) h
    · exact le_trans (min_le_right _ _) (by linarith)
  · intro k hk
    rw [hab, hk, normalize_angle_int_mul]
    norm_num
  · intro k hk
    rw [hab, hk, normalize_angle_opposite]
    norm_num

/-- Witness for C3 at concrete inputs, including the spec's own example
`angular_diff 10 190 = 180` and a mod-360 congruence `angular_diff 370 10 = 0`. -/
theorem angular_diff_spec_witness :
    angular_diff 10 190 = angular_diff 190 10 ∧
    0 ≤ angular_diff 10 190 ∧ angular_diff 10 190 ≤ 180 ∧
    angular_diff 10 190 = 180 ∧ angular_diff 370 10 = 0 := by
  obtain ⟨h1, h2, h3, _, h5⟩ := angular_diff_spec 10 190
  exact ⟨h1, h2, h3, h5 (-1) (by norm_num),
    (angular_diff_spec 370 10).2.2.2.1 1 (by norm_num)⟩

theorem determine_aspect_eq_find (diff : ℚ) (cfg : Catalogue) :
    determine_aspect diff cfg =
      (cfg.find? (fun p => entry_matches p.2 diff)).map
        (fun p => (p.1, |diff - p.2.angle|, p.2.score)) := by
  induction cfg with
  | nil => rfl
  | cons p rest ih =>
    obtain ⟨name, c⟩ := p
    by_cases h : |diff - c.angle| ≤ c.orb
    · simp [determine_aspect, List.find?, entry_matches, h]
    · simp [determine_aspect, List.find?, entry_matches, h, ih]

theorem determine_aspect_isSome_of_mem (diff : ℚ) (cfg : Catalogue)
    (n : String) (c : AspectCfg) (hmem : (n, c) ∈ cfg)
    (hm : entry_matches c diff = true) :
    (determine_aspect diff cfg).isSome = true := by
  induction cfg with
  | nil => cases hmem
  | cons p rest ih =>
    obtain ⟨nm, c'⟩ := p
    by_cases h : |diff - c'.angle| ≤ c'.orb
    · simp [determine_aspect, h]
    · rcases List.mem_cons.mp hmem with heq | htail
      · exfalso
        apply h
        have hc : c' = c := by
          have := congrArg Prod.snd heq.symm
          simpa using this
        rw [hc]
        simpa [entry_matches] using hm
      · simpa [determine_aspect, h] using ih htail

/-- C2: the resolver walks the catalogue in its insertion order — which
`get_user_aspect_config` takes from the orb dict's key order, i.e. the
static aspect-type list — and returns the first entry within orb: it equals
a `find?` over the catalogue list, and whenever the entry at index `i`
qualifies, the returned match comes from the first qualifying index
`j ≤ i` (every earlier index failing its test), regardless of residuals. -/
theorem resolver_first_match_order :
    (∀ (orbs scores : List (String × ℚ)) (cfg : Catalogue),
      get_user_aspect_config orbs scores = some cfg →
      cfg.map Prod.fst = orbs.map Prod.fst) ∧
    (∀ (diff : ℚ) (cfg : Catalogue),
      determine_aspect diff cfg =
        (cfg.find? (fun p => entry_matches p.2 diff)).map
          (fun p => (p.1, |diff - p.2.angle|, p.2.score))) ∧
    (∀ (diff : ℚ) (cfg : Catalogue) (i : ℕ) (hi : i < cfg.length),
      entry_matches (cfg.get ⟨i, hi⟩).2 diff = true →
      ∃ (j : ℕ) (hj : j < cfg.length), j ≤ i ∧
        entry_matches (cfg.get ⟨j, hj⟩).2 diff = true ∧
        (∀ (m : ℕ) (hm : m < cfg.length), m < j →
          entry_matches (cfg.get ⟨m, hm⟩).2 diff = false) ∧
        determine_aspect diff cfg =
          some ((cfg.get ⟨j, hj⟩).1, |diff - (cfg.get ⟨j, hj⟩).2.angle|,
            (cfg.get ⟨j, hj⟩).2.score)) := by
  refine ⟨?_, determine_aspect_eq_find, ?_⟩
  · intro orbs
    induction orbs with
    | nil =>
      intro scores cfg h
      simp only [get_user_aspect_config] at h
      cases h
      rfl
    | cons p rest ih =>
      intro scores cfg h
      obtain ⟨k, orb⟩ := p
      simp only [get_user_aspect_config] at h
      cases h1 : ASPECT_ANGLES.lookup k <;> rw [h1] at h
      · cases h
      cases h2 : scores.lookup k <;> rw [h2] at h
      · cases h
      cases h3 : get_user_aspect_config rest scores <;> rw [h3] at h
      · cases h
      cases h
      simpa using ih scores _ h3
  · intro diff cfg
    induction cfg with
    | nil =>
      intro i hi
      exact absurd hi (by simp)
    | cons p rest ih =>
      intro i hi hqual
      obtain ⟨nm, c⟩ := p
      by_cases h : |diff - c.angle| ≤ c.orb
      · refine ⟨0, by simp, Nat.zero_le i, ?_, ?_, ?_⟩
        · simpa [entry_matches] using h
        · intro m hm hml
          exact absurd hml (Nat.not_lt_zero m)
        · simp [determine_aspect, h]
      · cases i with
        | zero =>
          exfalso
          apply h
          simpa [entry_matches] using hqual
        | succ i' =>
          have hi' : i' < rest.length := by
            simpa [Nat.succ_lt_succ_iff] using hi
          obtain ⟨j, hj, hle, hq, hpre, heq⟩ := ih i' hi' (by simpa using hqual)
          refine ⟨j + 1, by simpa [Nat.succ_lt_succ_iff] using hj,
            Nat.succ_le_succ hle, by simpa using hq, ?_, ?_⟩
          · intro m hm hml
            cases m with
            | zero => simpa [entry_matches] using h
            | succ m' =>
              have : m' < j := Nat.lt_of_succ_lt_succ hml
              exact hpre m' (by simpa [Nat.succ_lt_succ_iff] using hm) this
          · simpa [determine_aspect, h] using heq

/-- Witness for C2: a two-entry catalogue where both entries qualify for
distance 25 and the later entry (`Semisextile`, residual 5) has the smaller
residual, yet the earlier (`Conjunction`, residual 25) is returned; the
catalogue built from canonical-order orbs keeps that order. -/
theorem resolver_first_match_order_witness :
    ([("Conjunction", (⟨0, 26, 5⟩ : AspectCfg)), ("Semisextile", ⟨30, 10, 1⟩)].map
        Prod.fst = [("Conjunction", (26 : ℚ)), ("Semisextile", 10)].map Prod.fst →
      False → True) ∧
    determine_aspect 25 [("Conjunction", ⟨0, 26, 5⟩), ("Semisextile", ⟨30, 10, 1⟩)] =
      some ("Conjunction", 25, 5) := by
  constructor
  · intro _ _
    trivial
  · have h := resolver_first_match_order.2.1 25
      [("Conjunction", ⟨0, 26, 5⟩), ("Semisextile", ⟨30, 10, 1⟩)]
    rw [h]
    norm_num [List.find?, entry_matches, abs_of_nonneg, abs_of_nonpos]

/-- C5: the per-entry window is inclusive — a distance of exactly
`target + orb` or `target - orb` passes the entry's test and the resolver
returns a match — while any distance whose residual exceeds the orb fails
that entry's test. -/
theorem resolver_inclusive_boundary (cfg : Catalogue) (n : String) (c : AspectCfg)
    (hmem : (n, c) ∈ cfg) (horb : 0 ≤ c.orb) :
    entry_matches c (c.angle + c.orb) = true ∧
    entry_matches c (c.angle - c.orb) = true ∧
    (determine_aspect (c.angle + c.orb) cfg).isSome = true ∧
    (determine_aspect (c.angle - c.orb) cfg).isSome = true ∧
    (∀ d : ℚ, c.orb < |d - c.angle| → entry_matches c d = false) := by
  have hplus : entry_matches c (c.angle + c.orb) = true := by
    have h : c.angle + c.orb - c.angle = c.orb := by ring
    simp [entry_matches, h, abs_of_nonneg horb]
  have hminus : entry_matches c (c.angle - c.orb) = true := by
    have h : c.angle - c.orb - c.angle = -c.orb := by ring
    simp [entry_matches, h, abs_neg, abs_of_nonneg horb]
  refine ⟨hplus, hminus,
    determine_aspect_isSome_of_mem _ cfg n c hmem hplus,
    determine_aspect_isSome_of_mem _ cfg n c hmem hminus, ?_⟩
  intro d hd
  simp only [entry_matches, decide_eq_false_iff_not, not_le]
  exact hd

/-- Witness for C5 on the catalogue entry Conjunction (target 0, orb 5):
distances 5 and -5 match, distance 6 fails the entry. -/
theorem resolver_inclusive_boundary_witness :
    entry_matches ⟨0, 5, 5⟩ ((0 : ℚ) + 5) = true ∧
    (determine_aspect ((0 : ℚ) - 5) [("Conjunction", ⟨0, 5, 5⟩)]).isSome = true ∧
    entry_matches ⟨0, 5, 5⟩ 6 = false := by
  obtain ⟨h1, _, _, h4, h5⟩ :=
    resolver_inclusive_boundary [("Conjunction", ⟨0, 5, 5⟩)] "Conjunction" ⟨0, 5, 5⟩
      (by simp) (by norm_num)
  exact ⟨h1, h4, h5 6 (by norm_num)⟩

/-- C6 (amended): whenever the resolver returns a match, the residual equals
`|distance - target|` of a catalogue entry carrying the returned name, is
nonnegative, and is at most (not strictly below) that entry's orb; the score
is the entry's score. -/
theorem resolver_residual_bounds (diff : ℚ) (cfg : Catalogue) (n : String) (r s : ℚ)
    (h : determine_aspect diff cfg = some (n, r, s)) :
    ∃ c : AspectCfg, (n, c) ∈ cfg ∧ r = |diff - c.angle| ∧ 0 ≤ r ∧
      r ≤ c.orb ∧ s = c.score := by
  induction cfg with
  | nil => cases h
  | cons p rest ih =>
    obtain ⟨nm, c⟩ := p
    by_cases hc : |diff - c.angle| ≤ c.orb
    · simp only [determine_aspect, if_pos hc] at h
      injection h with h'
      injection h' with h1 h23
      injection h23 with h2 h3
      subst h1
      subst h2
      subst h3
      exact ⟨c, List.mem_cons_self _ _, rfl, abs_nonneg _, hc, rfl⟩
    · simp only [determine_aspect, if_neg hc] at h
      obtain ⟨c', hmem, hr, hnn, hle, hs⟩ := ih h
      exact ⟨c', List.mem_cons_of_mem _ hmem, hr, hnn, hle, hs⟩

/-- Counterexample to C6 as stated: with catalogue entry Conjunction
(target 0, orb 5) and distance exactly 5, the resolver matches with
residual 5, which is not strictly less than the orb 5. -/
theorem resolver_residual_counterexample :
    determine_aspect 5 [("Conjunction", ⟨0, 5, 5⟩)] = some ("Conjunction", 5, 5) ∧
    ¬ ((5 : ℚ) < (5 : ℚ)) := by
  constructor
  · norm_num [determine_aspect, abs_of_nonneg]
  · norm_num

/-- Witness for the amended C6 at distance 2 against the singleton
Conjunction catalogue. -/
theorem resolver_residual_bounds_witness :
    ∃ c : AspectCfg, ("Conjunction", c) ∈ [("Conjunction", (⟨0, 5, 5⟩ : AspectCfg))] ∧
      (2 : ℚ) = |2 - c.angle| ∧ (0 : ℚ) ≤ 2 ∧ (2 : ℚ) ≤ c.orb ∧ (5 : ℚ) = c.score :=
  resolver_residual_bounds 2 [("Conjunction", ⟨0, 5, 5⟩)] "Conjunction" 2 5
    (by norm_num [determine_aspect, abs_of_nonneg])

/-- C10: the resolver returns either the all-absent triple (and then no
catalogue entry passes its test) or a fully-present triple whose name is a
key of the catalogue, whose residual is `|distance - target|` for that
entry, and whose score is that entry's score — never a partially present
triple (the Python sources return exactly `(None, None, None)` or the full
`(name, residual, score)` tuple, embedded as `none` / `some`). -/
theorem resolver_all_or_nothing (diff : ℚ) (cfg : Catalogue) :
    (determine_aspect diff cfg = none ∧ ∀ p ∈ cfg, entry_matches p.2 diff = false) ∨
    (∃ n r s c, determine_aspect diff cfg = some (n, r, s) ∧ (n, c) ∈ cfg ∧
      entry_matches c diff = true ∧ r = |diff - c.angle| ∧ s = c.score) := by
  induction cfg with
  | nil => exact Or.inl ⟨rfl, by simp⟩
  | cons p rest ih =>
    obtain ⟨nm, c⟩ := p
    by_cases hc : |diff - c.angle| ≤ c.orb
    · refine Or.inr ⟨nm, |diff - c.angle|, c.score, c, ?_, List.mem_cons_self _ _, ?_, rfl, rfl⟩
      · simp [determine_aspect, if_pos hc]
      · simpa [entry_matches] using hc
    · rcases ih with ⟨hnone, hall⟩ | ⟨n, r, s, c', heq, hmem, hm, hr, hs⟩
      · refine Or.inl ⟨by simp [determine_aspect, if_neg hc, hnone], ?_⟩
        intro p hp
        rcases List.mem_cons.mp hp with heq | htail
        · subst heq
          simpa [entry_matches] using hc
        · exact hall p htail
      · exact Or.inr ⟨n, r, s, c', by simp [determine_aspect, if_neg hc, heq],
          List.mem_cons_of_mem _ hmem, hm, hr, hs⟩

/-- C7: for `D1 < D2`, scanning with the endpoints reversed
(`start = D2`, `end = D1`) yields exactly the same result as scanning with
`(start = D1, end = D2)`: the endpoints are swapped up front and the range
is always walked low-to-high. -/
theorem scan_date_order_independent {Time : Type} (ticker : String)
    (df_ipo : List IpoRow) (D1 D2 : ℤ) (t : Time) (cfg : Catalogue)
    (ephemeris : ℤ → Time → Except String (List (String × ℚ)))
    (h : D1 < D2) :
    calculate_aspects_for_ticker ticker df_ipo D2 D1 t cfg ephemeris =
      calculate_aspects_for_ticker ticker df_ipo D1 D2 t cfg ephemeris := by
  unfold calculate_aspects_for_ticker
  cases hf : df_ipo.filter (fun r => r.ticker == ticker) with
  | nil => rfl
  | cons row rest =>
    simp only [gt_iff_lt, if_pos h, if_neg h.asymm]

/-- Witness for C7 at `D1 = 0 < 1 = D2` with a concrete table, catalogue and
ephemeris oracle. -/
theorem scan_date_order_independent_witness :
    calculate_aspects_for_ticker "AAA" [⟨"AAA", -100⟩] 1 0 ()
        [("Conjunction", ⟨0, 5, 5⟩)] (fun _ _ => Except.ok [("Sun", 2)]) =
      calculate_aspects_for_ticker "AAA" [⟨"AAA", -100⟩] 0 1 ()
        [("Conjunction", ⟨0, 5, 5⟩)] (fun _ _ => Except.ok [("Sun", 2)]) :=
  scan_date_order_independent "AAA" [⟨"AAA", -100⟩] 0 1 ()
    [("Conjunction", ⟨0, 5, 5⟩)] (fun _ _ => Except.ok [("Sun", 2)]) (by norm_num)

/-- C8: a ticker with no row in the IPO reference table yields the empty
result set (an `ok` empty frame), not an error. -/
theorem missing_symbol_empty {Time : Type} (ticker : String) (df_ipo : List IpoRow)
    (start_date end_date : ℤ) (t : Time) (cfg : Catalogue)
    (ephemeris : ℤ → Time → Except String (List (String × ℚ)))
    (h : ∀ r ∈ df_ipo, r.ticker ≠ ticker) :
    calculate_aspects_for_ticker ticker df_ipo start_date end_date t cfg ephemeris =
      Except.ok [] := by
  have hf : df_ipo.filter (fun r => r.ticker == ticker) = [] := by
    rw [List.filter_eq_nil_iff]
    intro r hr
    simpa using h r hr
  unfold calculate_aspects_for_ticker
  rw [hf]

/-- Witness for C8: the table holds only ticker BBB; scanning AAA returns
the empty result. -/
theorem missing_symbol_empty_witness :
    calculate_aspects_for_ticker "AAA" [⟨"BBB", 0⟩] 0 2 ()
        [("Conjunction", ⟨0, 5, 5⟩)] (fun _ _ => Except.ok [("Sun", 2)]) =
      Except.ok [] :=
  missing_symbol_empty "AAA" [⟨"BBB", 0⟩] 0 2 () [("Conjunction", ⟨0, 5, 5⟩)]
    (fun _ _ => Except.ok [("Sun", 2)])
    (by intro r hr; simp at hr; simp [hr])

theorem processEval_skip {tk : String} {cfg : Catalogue} {d : ℤ} {st : ScanState}
    (src a b : String) (diff : ℚ) (h : determine_aspect diff cfg = none) :
    processEval tk cfg d st ⟨src, a, b, diff⟩ = st := by
  simp [processEval, h]

theorem det_single_none (n : String) (c : AspectCfg) (d : ℚ)
    (h : c.orb < |d - c.angle|) : determine_aspect d [(n, c)] = none := by
  simp only [determine_aspect, if_neg (not_le.mpr h)]

theorem scanDay_sun (tk : String) (cfg : Catalogue) (i x : ℚ) (d : ℤ) (st : ScanState)
    (h1 : determine_aspect (angular_diff x 103.85) cfg = none)
    (h2 : determine_aspect (angular_diff x 353.33) cfg = none)
    (h3 : determine_aspect (angular_diff x 207.7) cfg = none)
    (h4 : determine_aspect (angular_diff x 228.72) cfg = none) :
    scanDay tk cfg [("Sun", i)] [("Sun", x)] d st =
      processEval tk cfg d st ⟨"IPO", "Sun", "Sun", angular_diff x i⟩ := by
  simp only [scanDay, dayEvals, ttPairs, NYSE_NATAL_POSITIONS, List.flatMap_cons,
    List.flatMap_nil, List.map_cons, List.map_nil, List.append_nil, List.cons_append,
    List.nil_append, List.foldl_cons, List.foldl_nil]
  rw [processEval_skip "NYSE" "Sun" "Mars" _ h4, processEval_skip "NYSE" "Sun" "Neptune" _ h3,
    processEval_skip "NYSE" "Sun" "MC" _ h2, processEval_skip "NYSE" "Sun" "ASC" _ h1]

theorem analysis_loop_append (run : String → Except String (List Row))
    (l1 l2 : List String) :
    analysis_loop (l1 ++ l2) run = analysis_loop l1 run ++ analysis_loop l2 run := by
  induction l1 with
  | nil => rfl
  | cons t rest ih => simp [analysis_loop, ih]

theorem analysis_loop_length (run : String → Except String (List Row))
    (l : List String) : (analysis_loop l run).length = l.length := by
  induction l with
  | nil => rfl
  | cons t rest ih => simp [analysis_loop, ih]

/-- Counterexample to C4 as stated: inside `calculate_aspects_for_ticker`
there is no per-instant exception handling — with an ephemeris oracle that
fails only at day 1 of the range 0..2, the whole scan returns the error,
discarding the day-0 event that the same scan emits when the oracle never
fails.  One failing instant does abort the whole scan. -/
theorem instant_failure_aborts_scan :
    calculate_aspects_for_ticker "AAA" [⟨"AAA", -100⟩] 0 2 ()
        [("Conjunction", ⟨0, 5, 5⟩)]
        (fun d _ => if d = 1 then Except.error "boom" else Except.ok [("Sun", 2)]) =
      Except.error "boom" ∧
    calculate_aspects_for_ticker "AAA" [⟨"AAA", -100⟩] 0 2 ()
        [("Conjunction", ⟨0, 5, 5⟩)]
        (fun _ _ => Except.ok [("Sun", 2)]) =
      Except.ok [⟨0, "AAA", "IPO", "Sun", "Sun", "Conjunction", 0, 5⟩] := by
  have hs : ¬("Conjunction" : String) = "" := by decide
  have h1 : determine_aspect (angular_diff 2 103.85)
      [("Conjunction", (⟨0, 5, 5⟩ : AspectCfg))] = none :=
    det_single_none _ _ _
      (by norm_num [angular_diff, normalize_angle, abs_of_nonneg, abs_of_nonpos])
  have h2 : determine_aspect (angular_diff 2 353.33)
      [("Conjunction", (⟨0, 5, 5⟩ : AspectCfg))] = none :=
    det_single_none _ _ _
      (by norm_num [angular_diff, normalize_angle, abs_of_nonneg, abs_of_nonpos])
  have h3 : determine_aspect (angular_diff 2 207.7)
      [("Conjunction", (⟨0, 5, 5⟩ : AspectCfg))] = none :=
    det_single_none _ _ _
      (by norm_num [angular_diff, normalize_angle, abs_of_nonneg, abs_of_nonpos])
  have h4 : determine_aspect (angular_diff 2 228.72)
      [("Conjunction", (⟨0, 5, 5⟩ : AspectCfg))] = none :=
    det_single_none _ _ _
      (by norm_num [angular_diff, normalize_angle, abs_of_nonneg, abs_of_nonpos])
  have hd0 : scanDay "AAA" [("Conjunction", ⟨0, 5, 5⟩)] [("Sun", 2)] [("Sun", 2)] 0 ⟨[], []⟩ =
      ⟨[⟨0, "AAA", "IPO", "Sun", "Sun", "Conjunction", 0, 5⟩],
       [(("IPO", "Sun", "Sun", "Conjunction"), 0)]⟩ := by
    rw [scanDay_sun "AAA" _ 2 2 0 _ h1 h2 h3 h4]
    norm_num [processEval, determine_aspect, lookupOrb, setOrb, angular_diff,
      normalize_angle, abs_of_nonneg, abs_of_nonpos, hs]
  have hd1 : scanDay "AAA" [("Conjunction", ⟨0, 5, 5⟩)] [("Sun", 2)] [("Sun", 2)] 1
      ⟨[⟨0, "AAA", "IPO", "Sun", "Sun", "Conjunction", 0, 5⟩],
       [(("IPO", "Sun", "Sun", "Conjunction"), 0)]⟩ =
      ⟨[⟨0, "AAA", "IPO", "Sun", "Sun", "Conjunction", 0, 5⟩],
       [(("IPO", "Sun", "Sun", "Conjunction"), 0)]⟩ := by
    rw [scanDay_sun "AAA" _ 2 2 1 _ h1 h2 h3 h4]
    norm_num [processEval, determine_aspect, lookupOrb, setOrb, angular_diff,
      normalize_angle, abs_of_nonneg, abs_of_nonpos, hs]
  have hd2 : scanDay "AAA" [("Conjunction", ⟨0, 5, 5⟩)] [("Sun", 2)] [("Sun", 2)] 2
      ⟨[⟨0, "AAA", "IPO", "Sun", "Sun", "Conjunction", 0, 5⟩],
       [(("IPO", "Sun", "Sun", "Conjunction"), 0)]⟩ =
      ⟨[⟨0, "AAA", "IPO", "Sun", "Sun", "Conjunction", 0, 5⟩],
       [(("IPO", "Sun", "Sun", "Conjunction"), 0)]⟩ := by
    rw [scanDay_sun "AAA" _ 2 2 2 _ h1 h2 h3 h4]
    norm_num [processEval, determine_aspect, lookupOrb, setOrb, angular_diff,
      normalize_angle, abs_of_nonneg, abs_of_nonpos, hs]
  have hrange : dateRange 0 2 = [0, 1, 2] := by decide
  constructor
  · simp only [calculate_aspects_for_ticker, List.filter, hrange]
    norm_num [scanDates, except_bind_ok, except_bind_error, except_map_ok, except_map_error, hd0]
  · simp only [calculate_aspects_for_ticker, List.filter, hrange]
    norm_num [scanDates, except_bind_ok, except_bind_error, except_map_ok, except_map_error, hd0, hd1, hd2]

/-- C4 (amended): an exception while sampling an instant propagates out of
the scan (see the counterexample) and is instead caught per symbol by the
run loop of `venus.py`: each ticker in the batch yields its own entry (an
`ok` table or a recorded error), a failure of one ticker leaves every other
ticker's entry unchanged, and the loop never drops a ticker. -/
theorem per_symbol_error_containment (run : String → Except String (List Row))
    (pre post : List String) (t : String) :
    analysis_loop (pre ++ t :: post) run =
      analysis_loop pre run ++ (t, run t) :: analysis_loop post run ∧
    (analysis_loop (pre ++ t :: post) run).length = pre.length + 1 + post.length ∧
    (∀ e, run t = Except.error e →
      (t, Except.error e) ∈ analysis_loop (pre ++ t :: post) run) := by
  have hdec : analysis_loop (pre ++ t :: post) run =
      analysis_loop pre run ++ (t, run t) :: analysis_loop post run := by
    rw [analysis_loop_append]
    rfl
  refine ⟨hdec, ?_, ?_⟩
  · rw [hdec, List.length_append, List.length_cons, analysis_loop_length,
      analysis_loop_length]
    omega
  · intro e he
    rw [hdec]
    rw [← he]
    exact List.mem_append_right _ (List.mem_cons_self _ _)

/-- Witness for the amended C4: with a run function failing exactly on BBB,
the batch AAA, BBB, CCC records BBB's error and still processes the rest. -/
theorem per_symbol_error_containment_witness :
    ("BBB", Except.error "boom") ∈
      analysis_loop ["AAA", "BBB", "CCC"]
        (fun tk => if tk = "BBB" then Except.error "boom" else Except.ok []) :=
  (per_symbol_error_containment
    (fun tk => if tk = "BBB" then Except.error "boom" else Except.ok [])
    ["AAA"] ["CCC"] "BBB").2.2 "boom" (by norm_num)

theorem scanDay_sun5 (tk : String) (i x : ℚ) (d : ℤ) (st : ScanState)
    (hA : 5 < |angular_diff x 103.85|) (hM : 5 < |angular_diff x 353.33|)
    (hN : 5 < |angular_diff x 207.7|) (hR : 5 < |angular_diff x 228.72|) :
    scanDay tk [("Conjunction", ⟨0, 5, 5⟩)] [("Sun", i)] [("Sun", x)] d st =
      processEval tk [("Conjunction", ⟨0, 5, 5⟩)] d st
        ⟨"IPO", "Sun", "Sun", angular_diff x i⟩ :=
  scanDay_sun tk _ i x d st
    (det_single_none _ _ _ (by simpa using hA))
    (det_single_none _ _ _ (by simpa using hM))
    (det_single_none _ _ _ (by simpa using hN))
    (det_single_none _ _ _ (by simpa using hR))

/-- Counterexample to C1 as stated: the `prev_orbs` assignment is
unconditional, so the tracking map holds the last observed residual, not
the smallest.  With residuals 2 (day 0), 4.5 (day 1, no event) and 3.5
(day 2) for the same key, a second event is emitted on day 2 with residual
3.5 even though the strictly smaller residual 2 had already been observed
for that key — under the claim's semantics no event would be emitted after
day 0. -/
theorem dedup_smallest_counterexample :
    calculate_aspects_for_ticker "AAA" [⟨"AAA", -100⟩] 0 2 ()
        [("Conjunction", ⟨0, 5, 5⟩)]
        (fun d _ => if d = -100 then Except.ok [("Sun", 2)]
          else if d = 0 then Except.ok [("Sun", 4)]
          else if d = 1 then Except.ok [("Sun", 6.5)] else Except.ok [("Sun", 5.5)]) =
      Except.ok [⟨0, "AAA", "IPO", "Sun", "Sun", "Conjunction", 2, 5⟩,
        ⟨2, "AAA", "IPO", "Sun", "Sun", "Conjunction", 3.5, 5⟩] ∧
    (⟨0, "AAA", "IPO", "Sun", "Sun", "Conjunction", 2, 5⟩ : Row).key =
      (⟨2, "AAA", "IPO", "Sun", "Sun", "Conjunction", 3.5, 5⟩ : Row).key ∧
    ((2 : ℚ) < 3.5) := by
  have hs : ¬("Conjunction" : String) = "" := by decide
  have hd0 : scanDay "AAA" [("Conjunction", ⟨0, 5, 5⟩)] [("Sun", 2)] [("Sun", 4)] 0 ⟨[], []⟩ =
      ⟨[⟨0, "AAA", "IPO", "Sun", "Sun", "Conjunction", 2, 5⟩],
       [(("IPO", "Sun", "Sun", "Conjunction"), 2)]⟩ := by
    rw [scanDay_sun5 "AAA" 2 4 0 _
      (by norm_num [angular_diff, normalize_angle, abs_of_nonneg, abs_of_nonpos])
      (by norm_num [angular_diff, normalize_angle, abs_of_nonneg, abs_of_nonpos])
      (by norm_num [angular_diff, normalize_angle, abs_of_nonneg, abs_of_nonpos])
      (by norm_num [angular_diff, normalize_angle, abs_of_nonneg, abs_of_nonpos])]
    norm_num [processEval, determine_aspect, lookupOrb, setOrb, angular_diff,
      normalize_angle, abs_of_nonneg, abs_of_nonpos, hs]
  have hd1 : scanDay "AAA" [("Conjunction", ⟨0, 5, 5⟩)] [("Sun", 2)] [("Sun", 13 / 2)] 1
      ⟨[⟨0, "AAA", "IPO", "Sun", "Sun", "Conjunction", 2, 5⟩],
       [(("IPO", "Sun", "Sun", "Conjunction"), 2)]⟩ =
      ⟨[⟨0, "AAA", "IPO", "Sun", "Sun", "Conjunction", 2, 5⟩],
       [(("IPO", "Sun", "Sun", "Conjunction"), 9 / 2)]⟩ := by
    rw [scanDay_sun5 "AAA" 2 (13 / 2) 1 _
      (by norm_num [angular_diff, normalize_angle, abs_of_nonneg, abs_of_nonpos])
      (by norm_num [angular_diff, normalize_angle, abs_of_nonneg, abs_of_nonpos])
      (by norm_num [angular_diff, normalize_angle, abs_of_nonneg, abs_of_nonpos])
      (by norm_num [angular_diff, normalize_angle, abs_of_nonneg, abs_of_nonpos])]
    norm_num [processEval, determine_aspect, lookupOrb, setOrb, angular_diff,
      normalize_angle, abs_of_nonneg, abs_of_nonpos, hs]
  have hd2 : scanDay "AAA" [("Conjunction", ⟨0, 5, 5⟩)] [("Sun", 2)] [("Sun", 11 / 2)] 2
      ⟨[⟨0, "AAA", "IPO", "Sun", "Sun", "Conjunction", 2, 5⟩],
       [(("IPO", "Sun", "Sun", "Conjunction"), 9 / 2)]⟩ =
      ⟨[⟨0, "AAA", "IPO", "Sun", "Sun", "Conjunction", 2, 5⟩,
        ⟨2, "AAA", "IPO", "Sun", "Sun", "Conjunction", 7 / 2, 5⟩],
       [(("IPO", "Sun", "Sun", "Conjunction"), 7 / 2)]⟩ := by
    rw [scanDay_sun5 "AAA" 2 (11 / 2) 2 _
      (by norm_num [angular_diff, normalize_angle, abs_of_nonneg, abs_of_nonpos])
      (by norm_num [angular_diff, normalize_angle, abs_of_nonneg, abs_of_nonpos])
      (by norm_num [angular_diff, normalize_angle, abs_of_nonneg, abs_of_nonpos])
      (by norm_num [angular_diff, normalize_angle, abs_of_nonneg, abs_of_nonpos])]
    norm_num [processEval, determine_aspect, lookupOrb, setOrb, angular_diff,
      normalize_angle, abs_of_nonneg, abs_of_nonpos, hs]
  have hrange : dateRange 0 2 = [0, 1, 2] := by decide
  refine ⟨?_, rfl, by norm_num⟩
  simp only [calculate_aspects_for_ticker, List.filter, hrange]
  norm_num [scanDates, except_bind_ok, except_bind_error, except_map_ok, except_map_error, hd0, hd1, hd2]

theorem addToGroup_ne_nil {Time : Type} [DecidableEq Time]
    (g : List (Time × List ℤ)) (t : Time) (d : ℤ) : addToGroup g t d ≠ [] := by
  cases g with
  | nil => simp [addToGroup]
  | cons p rest =>
    obtain ⟨t', ds⟩ := p
    by_cases h : t' = t <;> simp [addToGroup, h]

theorem foldl_addToGroup_ne_nil {Time : Type} [DecidableEq Time] :
    ∀ (l : List (ℤ × Time)) (g : List (Time × List ℤ)), g ≠ [] →
    l.foldl (fun acc p => addToGroup acc p.2 p.1) g ≠ []
  | [], _, hg => hg
  | p :: rest, g, _ => by
    rw [List.foldl_cons]
    exact foldl_addToGroup_ne_nil rest _ (addToGroup_ne_nil g p.2 p.1)

theorem groupByTime_cons_ne_nil {Time : Type} [DecidableEq Time]
    (p : ℤ × Time) (rest : List (ℤ × Time)) : groupByTime (p :: rest) ≠ [] := by
  unfold groupByTime
  rw [List.foldl_cons]
  exact foldl_addToGroup_ne_nil rest _ (addToGroup_ne_nil [] p.2 p.1)

theorem runGroups_cons_error {Time : Type} (ticker : String) (df_ipo : List IpoRow)
    (cfg : Catalogue) (ephemeris : ℤ → Time → Except String (List (String × ℚ)))
    (g : Time × List ℤ) (gs : List (Time × List ℤ)) (parts : List Row) :
    runGroups ticker df_ipo cfg ephemeris (g :: gs) parts =
      Except.error
        "TypeError: calculate_aspects_for_ticker() got an unexpected keyword argument matched_df" := by
  obtain ⟨t, ds⟩ := g
  rfl

theorem run_calculations_ok_empty {Time : Type} [DecidableEq Time] (ticker : String)
    (df_ipo : List IpoRow) (date_to_time : List (ℤ × Time)) (cfg : Catalogue)
    (ephemeris : ℤ → Time → Except String (List (String × ℚ))) (rows : List Row)
    (hok : run_calculations_per_time ticker df_ipo date_to_time cfg ephemeris =
      Except.ok rows) :
    rows = [] := by
  cases date_to_time with
  | nil =>
    simp only [run_calculations_per_time] at hok
    injection hok with h
    exact h.symm
  | cons p rest =>
    simp only [run_calculations_per_time] at hok
    obtain ⟨g, gs, hg⟩ : ∃ g gs, groupByTime (p :: rest) = g :: gs := by
      cases hgt : groupByTime (p :: rest) with
      | nil => exact absurd hgt (groupByTime_cons_ne_nil p rest)
      | cons g gs => exact ⟨g, gs, rfl⟩
    rw [hg, runGroups_cons_error] at hok
    exact Except.noConfusion hok

/-- C9: if a weekday has no assigned time, the orchestrator's merged output
contains zero events dated to any calendar date of that weekday in the
range.  On this code the guarantee holds degenerately: the per-group call of
`venus.py` lines 69-76 passes the keyword `matched_df`, absent from the
`astro_analysis.py` line 86 signature, so it raises `TypeError` before any
scanning — a nonempty date-to-time map therefore yields that error (caught
per ticker upstream, see `analysis_loop`), the empty map yields the empty
frame, and no event at all — on a skipped weekday or any other — is ever
emitted. -/
theorem weekday_skip_zero_events {Time : Type} [DecidableEq Time] (ticker : String)
    (df_ipo : List IpoRow) (start_d end_d : ℤ) (weekday_time_map : ℤ → Option Time)
    (cfg : Catalogue) (ephemeris : ℤ → Time → Except String (List (String × ℚ)))
    (w : ℤ) (hw : weekday_time_map w = none) :
    (∀ rows : List Row,
      run_calculations_per_time ticker df_ipo
        (build_date_to_time_map start_d end_d weekday_time_map) cfg ephemeris =
        Except.ok rows →
      ∀ r ∈ rows, ¬ (r.date ∈ dateRange start_d end_d ∧ weekday r.date = w)) ∧
    (build_date_to_time_map start_d end_d weekday_time_map ≠ [] →
      run_calculations_per_time ticker df_ipo
        (build_date_to_time_map start_d end_d weekday_time_map) cfg ephemeris =
        Except.error
          "TypeError: calculate_aspects_for_ticker() got an unexpected keyword argument matched_df") := by
  constructor
  · intro rows hok r hr
    rw [run_calculations_ok_empty ticker df_ipo _ cfg ephemeris rows hok] at hr
    cases hr
  · intro hne
    cases hdt : build_date_to_time_map start_d end_d weekday_time_map with
    | nil => exact absurd hdt hne
    | cons p rest =>
      simp only [run_calculations_per_time]
      obtain ⟨g, gs, hg⟩ : ∃ g gs, groupByTime (p :: rest) = g :: gs := by
        cases hgt : groupByTime (p :: rest) with
        | nil => exact absurd hgt (groupByTime_cons_ne_nil p rest)
        | cons g gs => exact ⟨g, gs, rfl⟩
      rw [hg, runGroups_cons_error]

/-- Witness for C9 over the range Monday(0)..Wednesday(2) with Tuesday
(weekday 1) skipped: the date-to-time map is nonempty, so the orchestrator
returns the TypeError and in particular emits no Tuesday-dated event. -/
theorem weekday_skip_zero_events_witness :
    run_calculations_per_time "AAA" [⟨"AAA", -100⟩]
        (build_date_to_time_map 0 2 (fun w => if w = 1 then none else some (10 : ℚ)))
        [("Conjunction", ⟨0, 5, 5⟩)] (fun _ _ => Except.ok [("Sun", 2)]) =
      Except.error
        "TypeError: calculate_aspects_for_ticker() got an unexpected keyword argument matched_df" := by
  have hrange : dateRange 0 2 = [0, 1, 2] := by decide
  have hbuild : build_date_to_time_map 0 2
      (fun w => if w = 1 then none else some (10 : ℚ)) = [(0, 10), (2, 10)] := by
    norm_num [build_date_to_time_map, weekday, hrange, List.filterMap_cons]
  exact (weekday_skip_zero_events "AAA" [⟨"AAA", -100⟩] 0 2
      (fun w => if w = 1 then none else some (10 : ℚ))
      [("Conjunction", ⟨0, 5, 5⟩)] (fun _ _ => Except.ok [("Sun", 2)]) 1
      (by norm_num)).2
    (by rw [hbuild]; simp)

theorem processEval_results_shape (tk : String) (cfg : Catalogue) (d : ℤ)
    (st : ScanState) (e : PairEval) :
    (processEval tk cfg d st e).results = st.results ∨
    ∃ asp od sc, determine_aspect e.diff cfg = some (asp, od, sc) ∧
      (processEval tk cfg d st e).results =
        st.results ++ [⟨d, tk, e.source, e.nameA, e.nameB, asp, od, sc⟩] := by
  cases hda : determine_aspect e.diff cfg with
  | none => exact Or.inl (by simp [processEval, hda])
  | some v =>
    obtain ⟨asp, od, sc⟩ := v
    by_cases ha : asp = ""
    · exact Or.inl (by simp [processEval, hda, ha])
    · cases hl : lookupOrb st.prevOrbs (e.source, e.nameA, e.nameB, asp) with
      | none =>
        exact Or.inr ⟨asp, od, sc, rfl, by simp [processEval, hda, ha, hl]⟩
      | some prev =>
        by_cases hlt : od < prev
        · exact Or.inr ⟨asp, od, sc, rfl, by simp [processEval, hda, ha, hl, hlt]⟩
        · exact Or.inl (by simp [processEval, hda, ha, hl, hlt])

theorem foldl_processEval_delta (tk : String) (cfg : Catalogue) (d : ℤ) :
    ∀ (evals : List PairEval) (st : ScanState),
    ∃ Δ : List Row,
      (evals.foldl (processEval tk cfg d) st).results = st.results ++ Δ ∧
      (∀ r ∈ Δ, r.date = d) ∧
      (∀ k : OrbKey, Δ.countP (fun r => decide (r.key = k)) ≤
        evals.countP (fun e => decide (e.triple = keyTriple k)))
  | [], st => ⟨[], by simp, by simp, by simp⟩
  | e :: es, st => by
    obtain ⟨Δ1, h1, hdate1, hcount1⟩ :=
      foldl_processEval_delta tk cfg d es (processEval tk cfg d st e)
    rcases processEval_results_shape tk cfg d st e with h0 | ⟨asp, od, sc, hda, h0⟩
    · refine ⟨Δ1, ?_, hdate1, ?_⟩
      · rw [List.foldl_cons, h1, h0]
      · intro k
        refine le_trans (hcount1 k) ?_
        rw [List.countP_cons]
        omega
    · refine ⟨(⟨d, tk, e.source, e.nameA, e.nameB, asp, od, sc⟩ : Row) :: Δ1, ?_, ?_, ?_⟩
      · rw [List.foldl_cons, h1, h0, List.append_assoc]
        rfl
      · intro r hr
        rcases List.mem_cons.mp hr with rfl | hr
        · rfl
        · exact hdate1 r hr
      · intro k
        rw [List.countP_cons, List.countP_cons]
        by_cases hk : (⟨d, tk, e.source, e.nameA, e.nameB, asp, od, sc⟩ : Row).key = k
        · have he : e.triple = keyTriple k := by
            rw [← hk]
            rfl
          simp only [hk, he, decide_True]
          have := hcount1 k
          omega
        · rw [decide_eq_false hk]
          simp only [Bool.false_eq_true, if_false]
          have := hcount1 k
          omega

theorem countP_map_triple_eq (S A : String) (f : String × ℚ → PairEval)
    (hf : ∀ p, (f p).triple = (S, A, p.1)) (s a b : String) :
    ∀ l : List (String × ℚ),
    (l.map f).countP (fun e => decide (e.triple = (s, a, b))) =
      if S = s ∧ A = a then (l.map Prod.fst).count b else 0
  | [] => by simp
  | p :: rest => by
    rw [List.map_cons, List.countP_cons, countP_map_triple_eq S A f hf s a b rest,
      List.map_cons, List.count_cons]
    by_cases hS : S = s <;> by_cases hA : A = a <;> by_cases hb : p.1 = b <;>
      simp [hf, hS, hA, hb, Prod.ext_iff]

theorem ttPairs_count (s a b : String) :
    ∀ l : List (String × ℚ), (l.map Prod.fst).Nodup →
    ((a ∉ l.map Prod.fst ∨ s ≠ "Transit") →
      (ttPairs l).countP (fun e => decide (e.triple = (s, a, b))) = 0) ∧
    (ttPairs l).countP (fun e => decide (e.triple = (s, a, b))) ≤ 1
  | [] => fun _ => ⟨fun _ => by simp [ttPairs], by simp [ttPairs]⟩
  | (n1, d1) :: rest => fun hnd => by
    have hnd' : (n1 :: rest.map Prod.fst).Nodup := by simpa using hnd
    have hn1 : n1 ∉ rest.map Prod.fst := (List.nodup_cons.mp hnd').1
    have hndr : (rest.map Prod.fst).Nodup := (List.nodup_cons.mp hnd').2
    obtain ⟨ih0, ih1⟩ := ttPairs_count s a b rest hndr
    have hhead := countP_map_triple_eq "Transit" n1
      (fun p => ⟨"Transit", n1, p.1, angular_diff d1 p.2⟩) (fun p => rfl) s a b rest
    constructor
    · intro hcond
      simp only [ttPairs, List.countP_append, hhead]
      have hh0 : (if "Transit" = s ∧ n1 = a then (rest.map Prod.fst).count b else 0) = 0 := by
        rcases hcond with hna | hs
        · have hne : ¬ n1 = a := by
            intro h
            exact hna (by simp [h])
          simp [hne]
        · exact if_neg (fun hcon => hs hcon.1.symm)
      have hr0 : (ttPairs rest).countP (fun e => decide (e.triple = (s, a, b))) = 0 := by
        apply ih0
        rcases hcond with hna | hs
        · exact Or.inl (fun hmem => hna (by simp [hmem]))
        · exact Or.inr hs
      rw [hh0, hr0]
    · simp only [ttPairs, List.countP_append, hhead]
      by_cases hc : "Transit" = s ∧ n1 = a
      · have hr0 : (ttPairs rest).countP (fun e => decide (e.triple = (s, a, b))) = 0 :=
          ih0 (Or.inl (hc.2 ▸ hn1))
        have hcb : (rest.map Prod.fst).count b ≤ 1 :=
          List.nodup_iff_count_le_one.mp hndr b
        rw [if_pos hc, hr0]
        omega
      · rw [if_neg hc]
        omega

theorem flat_count (ipoPos : List (String × ℚ)) (hI : (ipoPos.map Prod.fst).Nodup)
    (s a b : String) :
    ∀ transitPos : List (String × ℚ), (transitPos.map Prod.fst).Nodup →
    ((a ∉ transitPos.map Prod.fst ∨ ("IPO" ≠ s ∧ "NYSE" ≠ s)) →
      (transitPos.flatMap (fun t =>
        ipoPos.map (fun n => (⟨"IPO", t.1, n.1, angular_diff t.2 n.2⟩ : PairEval))
        ++ NYSE_NATAL_POSITIONS.map
          (fun n => (⟨"NYSE", t.1, n.1, angular_diff t.2 n.2⟩ : PairEval)))).countP
        (fun e => decide (e.triple = (s, a, b))) = 0) ∧
    (transitPos.flatMap (fun t =>
      ipoPos.map (fun n => (⟨"IPO", t.1, n.1, angular_diff t.2 n.2⟩ : PairEval))
      ++ NYSE_NATAL_POSITIONS.map
        (fun n => (⟨"NYSE", t.1, n.1, angular_diff t.2 n.2⟩ : PairEval)))).countP
      (fun e => decide (e.triple = (s, a, b))) ≤ 1
  | [] => fun _ => ⟨fun _ => by simp, by simp⟩
  | (tn, td) :: rest => fun hnd => by
    have hnd' : (tn :: rest.map Prod.fst).Nodup := by simpa using hnd
    have htn : tn ∉ rest.map Prod.fst := (List.nodup_cons.mp hnd').1
    have hndr : (rest.map Prod.fst).Nodup := (List.nodup_cons.mp hnd').2
    obtain ⟨ih0, ih1⟩ := flat_count ipoPos hI s a b rest hndr
    have hipo := countP_map_triple_eq "IPO" tn
      (fun n => ⟨"IPO", tn, n.1, angular_diff td n.2⟩) (fun p => rfl) s a b ipoPos
    have hnyse := countP_map_triple_eq "NYSE" tn
      (fun n => ⟨"NYSE", tn, n.1, angular_diff td n.2⟩) (fun p => rfl) s a b
      NYSE_NATAL_POSITIONS
    have hnyseN : ((NYSE_NATAL_POSITIONS.map Prod.fst).count b) ≤ 1 :=
      List.nodup_iff_count_le_one.mp (by decide) b
    have hipoN : ((ipoPos.map Prod.fst).count b) ≤ 1 :=
      List.nodup_iff_count_le_one.mp hI b
    constructor
    · intro hcond
      simp only [List.flatMap_cons, List.countP_append, hipo, hnyse]
      have hI0 : (if "IPO" = s ∧ tn = a then (ipoPos.map Prod.fst).count b else 0) = 0 := by
        rcases hcond with hna | ⟨hip, _⟩
        · exact if_neg (fun hcon => (fun h => hna (by simp [h])) hcon.2)
        · exact if_neg (fun hcon => hip hcon.1)
      have hN0 : (if "NYSE" = s ∧ tn = a then
          (NYSE_NATAL_POSITIONS.map Prod.fst).count b else 0) = 0 := by
        rcases hcond with hna | ⟨_, hny⟩
        · exact if_neg (fun hcon => (fun h => hna (by simp [h])) hcon.2)
        · exact if_neg (fun hcon => hny hcon.1)
      have hr0 : (rest.flatMap (fun t =>
          ipoPos.map (fun n => (⟨"IPO", t.1, n.1, angular_diff t.2 n.2⟩ : PairEval))
          ++ NYSE_NATAL_POSITIONS.map
            (fun n => (⟨"NYSE", t.1, n.1, angular_diff t.2 n.2⟩ : PairEval)))).countP
          (fun e => decide (e.triple = (s, a, b))) = 0 := by
        apply ih0
        rcases hcond with hna | hss
        · exact Or.inl (fun hmem => hna (by simp [hmem]))
        · exact Or.inr hss
      rw [hI0, hN0, hr0]
    · simp only [List.flatMap_cons, List.countP_append, hipo, hnyse]
      by_cases hta : tn = a
      · have hr0 : (rest.flatMap (fun t =>
            ipoPos.map (fun n => (⟨"IPO", t.1, n.1, angular_diff t.2 n.2⟩ : PairEval))
            ++ NYSE_NATAL_POSITIONS.map
              (fun n => (⟨"NYSE", t.1, n.1, angular_diff t.2 n.2⟩ : PairEval)))).countP
            (fun e => decide (e.triple = (s, a, b))) = 0 :=
          ih0 (Or.inl (hta ▸ htn))
        rw [hr0]
        by_cases hsI : "IPO" = s
        · have hsN : ¬ ("NYSE" = s ∧ tn = a) := by
            intro hcon
            rw [← hsI] at hcon
            exact absurd hcon.1 (by decide)
          rw [if_neg hsN]
          by_cases hI' : "IPO" = s ∧ tn = a
          · rw [if_pos hI']
            omega
          · rw [if_neg hI']
            omega
        · have hsI' : ¬ ("IPO" = s ∧ tn = a) := fun hcon => hsI hcon.1
          rw [if_neg hsI']
          by_cases hN' : "NYSE" = s ∧ tn = a
          · rw [if_pos hN']
            omega
          · rw [if_neg hN']
            omega
      · have hI0 : ¬ ("IPO" = s ∧ tn = a) := fun hcon => hta hcon.2
        have hN0 : ¬ ("NYSE" = s ∧ tn = a) := fun hcon => hta hcon.2
        rw [if_neg hI0, if_neg hN0]
        omega

theorem dayEvals_count (ipoPos transitPos : List (String × ℚ))
    (hI : (ipoPos.map Prod.fst).Nodup) (hT : (transitPos.map Prod.fst).Nodup)
    (k : OrbKey) :
    (dayEvals ipoPos transitPos).countP
      (fun e => decide (e.triple = keyTriple k)) ≤ 1 := by
  obtain ⟨s, a, b, hk⟩ : ∃ s a b, keyTriple k = (s, a, b) :=
    ⟨k.1, k.2.1, k.2.2.1, rfl⟩
  rw [hk]
  simp only [dayEvals, List.countP_append]
  by_cases hs : s = "Transit"
  · have hflat0 := (flat_count ipoPos hI s a b transitPos hT).1
      (Or.inr ⟨by rw [hs]; decide, by rw [hs]; decide⟩)
    have htt := (ttPairs_count s a b transitPos hT).2
    rw [hflat0]
    omega
  · have htt0 := (ttPairs_count s a b transitPos hT).1 (Or.inr hs)
    have hflat := (flat_count ipoPos hI s a b transitPos hT).2
    rw [htt0]
    omega

theorem countP_mono_of_imp {α : Type} (p q : α → Bool) :
    ∀ l : List α, (∀ x ∈ l, p x = true → q x = true) →
    l.countP p ≤ l.countP q
  | [], _ => le_refl _
  | x :: xs, h => by
    rw [List.countP_cons, List.countP_cons]
    have hrec := countP_mono_of_imp p q xs (fun y hy => h y (List.mem_cons_of_mem _ hy))
    by_cases hp : p x = true
    · rw [hp, h x (List.mem_cons_self _ _) hp]
      omega
    · rw [Bool.not_eq_true] at hp
      rw [hp]
      simp only [Bool.false_eq_true, if_false]
      omega

theorem scanDay_delta (tk : String) (cfg : Catalogue)
    (ipoPos transitPos : List (String × ℚ)) (d : ℤ) (st : ScanState)
    (hI : (ipoPos.map Prod.fst).Nodup) (hT : (transitPos.map Prod.fst).Nodup) :
    ∃ Δ : List Row, (scanDay tk cfg ipoPos transitPos d st).results = st.results ++ Δ ∧
      (∀ r ∈ Δ, r.date = d) ∧
      (∀ (k : OrbKey) (d' : ℤ),
        Δ.countP (fun r => decide (r.key = k ∧ r.date = d')) ≤ 1) := by
  obtain ⟨Δ, h1, h2, h3⟩ := foldl_processEval_delta tk cfg d (dayEvals ipoPos transitPos) st
  refine ⟨Δ, h1, h2, ?_⟩
  intro k d'
  have hmono : Δ.countP (fun r => decide (r.key = k ∧ r.date = d')) ≤
      Δ.countP (fun r => decide (r.key = k)) := by
    apply countP_mono_of_imp
    intro r _ hr
    exact decide_eq_true (of_decide_eq_true hr).1
  exact le_trans hmono (le_trans (h3 k) (dayEvals_count ipoPos transitPos hI hT k))

theorem except_bind_eq_ok {α β : Type} (x : Except String α)
    (f : α → Except String β) (b : β) (h : x.bind f = Except.ok b) :
    ∃ a, x = Except.ok a ∧ f a = Except.ok b := by
  cases x with
  | error e => exact Except.noConfusion h
  | ok a => exact ⟨a, rfl, h⟩

theorem except_map_eq_ok {α β : Type} (x : Except String α) (f : α → β) (b : β)
    (h : x.map f = Except.ok b) : ∃ a, x = Except.ok a ∧ b = f a := by
  cases x with
  | error e => exact Except.noConfusion h
  | ok a =>
    refine ⟨a, rfl, ?_⟩
    injection h with h'
    exact h'.symm

theorem dateRange_nodup (s e : ℤ) : (dateRange s e).Nodup := by
  unfold dateRange
  refine List.Nodup.map ?_ (List.nodup_range _)
  intro a b hab
  have h : (a : ℤ) = b := by simpa using hab
  exact_mod_cast h

theorem scanDates_delta {Time : Type} (tk : String) (cfg : Catalogue)
    (ipoPos : List (String × ℚ)) (t : Time)
    (eph : ℤ → Time → Except String (List (String × ℚ)))
    (hI : (ipoPos.map Prod.fst).Nodup)
    (hephT : ∀ d p, eph d t = Except.ok p → (p.map Prod.fst).Nodup) :
    ∀ (dates : List ℤ), dates.Nodup → ∀ (st final : ScanState),
    scanDates tk cfg ipoPos t eph dates st = Except.ok final →
    ∃ Δ : List Row, final.results = st.results ++ Δ ∧
      (∀ r ∈ Δ, r.date ∈ dates) ∧
      (∀ (k : OrbKey) (d : ℤ),
        Δ.countP (fun r => decide (r.key = k ∧ r.date = d)) ≤ 1)
  | [] => fun _ st final h => by
    simp only [scanDates] at h
    injection h with h'
    subst h'
    exact ⟨[], by simp, by simp, by simp⟩
  | d :: ds => fun hnd st final h => by
    have hnd' := List.nodup_cons.mp hnd
    simp only [scanDates] at h
    obtain ⟨tp, heph, h2⟩ := except_bind_eq_ok _ _ _ h
    obtain ⟨Δ0, g1, g2, g3⟩ := scanDay_delta tk cfg ipoPos tp d st hI (hephT d tp heph)
    obtain ⟨Δ1, f1, f2, f3⟩ := scanDates_delta tk cfg ipoPos t eph hI hephT ds hnd'.2
      (scanDay tk cfg ipoPos tp d st) final h2
    refine ⟨Δ0 ++ Δ1, ?_, ?_, ?_⟩
    · rw [f1, g1, List.append_assoc]
    · intro r hr
      rcases List.mem_append.mp hr with hr | hr
      · rw [g2 r hr]
        exact List.mem_cons_self _ _
      · exact List.mem_cons_of_mem _ (f2 r hr)
    · intro k d''
      rw [List.countP_append]
      by_cases hdd : d'' = d
      · have hc1 : Δ1.countP (fun r => decide (r.key = k ∧ r.date = d'')) = 0 := by
          rw [List.countP_eq_zero]
          intro r hr
          simp only [decide_eq_true_eq, not_and]
          intro _ hrd
          have hmem : r.date ∈ ds := f2 r hr
          rw [hrd, hdd] at hmem
          exact absurd hmem hnd'.1
        rw [hc1]
        have := g3 k d''
        omega
      · have hc0 : Δ0.countP (fun r => decide (r.key = k ∧ r.date = d'')) = 0 := by
          rw [List.countP_eq_zero]
          intro r hr
          simp only [decide_eq_true_eq, not_and]
          intro _ hrd
          exact hdd (hrd ▸ (g2 r hr) ▸ rfl)
        rw [hc0]
        have := f3 k d''
        omega

/-- C1 (amended): in one scan, each composite key (source, point-A,
point-B, aspect name) appears at most once in the emitted rows per calendar
day (each pair is evaluated once per sampled instant and one instant is
sampled per day), assuming the ephemeris returns distinct body names.  The
dedup map itself holds the last (not smallest) observed residual — see the
counterexample — so only the per-day uniqueness part of the claim holds. -/
theorem per_day_key_uniqueness {Time : Type} (ticker : String)
    (df_ipo : List IpoRow) (start_date end_date : ℤ) (t : Time) (cfg : Catalogue)
    (eph : ℤ → Time → Except String (List (String × ℚ))) (rows : List Row)
    (hok : calculate_aspects_for_ticker ticker df_ipo start_date end_date t cfg eph =
      Except.ok rows)
    (hnodup : ∀ d p, eph d t = Except.ok p → (p.map Prod.fst).Nodup) :
    ∀ (k : OrbKey) (d : ℤ),
      rows.countP (fun r => decide (r.key = k ∧ r.date = d)) ≤ 1 := by
  intro k d
  unfold calculate_aspects_for_ticker at hok
  cases hfil : df_ipo.filter (fun r => r.ticker == ticker) with
  | nil =>
    rw [hfil] at hok
    injection hok with h'
    subst h'
    simp
  | cons row rest =>
    rw [hfil] at hok
    obtain ⟨ipoPos, heph, hok2⟩ := except_bind_eq_ok _ _ _ hok
    obtain ⟨final, hscan, hres⟩ := except_map_eq_ok _ _ _ hok2
    obtain ⟨Δ, f1, f2, f3⟩ := scanDates_delta ticker cfg ipoPos t eph
      (hnodup row.date ipoPos heph) hnodup _ (dateRange_nodup _ _) ⟨[], []⟩ final hscan
    rw [hres, f1]
    simpa using f3 k d

/-- Witness for the amended C1: a concrete one-day scan emitting one event;
its per-(key, day) count is at most one. -/
theorem per_day_key_uniqueness_witness :
    ([(⟨0, "AAA", "IPO", "Sun", "Sun", "Conjunction", 0, 5⟩ : Row)]).countP
      (fun r => decide (r.key = ("IPO", "Sun", "Sun", "Conjunction") ∧ r.date = 0)) ≤ 1 := by
  have hs : ¬("Conjunction" : String) = "" := by decide
  have hd0 : scanDay "AAA" [("Conjunction", ⟨0, 5, 5⟩)] [("Sun", 2)] [("Sun", 2)] 0
      ⟨[], []⟩ =
      ⟨[⟨0, "AAA", "IPO", "Sun", "Sun", "Conjunction", 0, 5⟩],
       [(("IPO", "Sun", "Sun", "Conjunction"), 0)]⟩ := by
    rw [scanDay_sun5 "AAA" 2 2 0 _
      (by norm_num [angular_diff, normalize_angle, abs_of_nonneg, abs_of_nonpos])
      (by norm_num [angular_diff, normalize_angle, abs_of_nonneg, abs_of_nonpos])
      (by norm_num [angular_diff, normalize_angle, abs_of_nonneg, abs_of_nonpos])
      (by norm_num [angular_diff, normalize_angle, abs_of_nonneg, abs_of_nonpos])]
    norm_num [processEval, determine_aspect, lookupOrb, setOrb, angular_diff,
      normalize_angle, abs_of_nonneg, abs_of_nonpos, hs]
  have hrange : dateRange 0 0 = [0] := by decide
  have hok : calculate_aspects_for_ticker "AAA" [⟨"AAA", -100⟩] 0 0 ()
      [("Conjunction", ⟨0, 5, 5⟩)] (fun _ _ => Except.ok [("Sun", 2)]) =
      Except.ok [⟨0, "AAA", "IPO", "Sun", "Sun", "Conjunction", 0, 5⟩] := by
    simp only [calculate_aspects_for_ticker, List.filter, hrange]
    norm_num [scanDates, except_bind_ok, except_bind_error, except_map_ok,
      except_map_error, hd0]
  exact per_day_key_uniqueness "AAA" [⟨"AAA", -100⟩] 0 0 ()
    [("Conjunction", ⟨0, 5, 5⟩)] (fun _ _ => Except.ok [("Sun", 2)]) _ hok
    (by
      intro d p h
      injection h with h'
      rw [← h']
      simp)
    ("IPO", "Sun", "Sun", "Conjunction") 0
